import Mathlib

/-!
Verification of the `yt_chunks` repository: a shallow embedding of the
smart chunking algorithm (`smart_chunk_downloader.py`), the main download
loop with its progress persistence, the batch merger
(`merge_transcript_batches.py`) and the batch splitter
(`prepare_bangla_batches.py`), together with proofs and refutations of the
specification's claims about them.

Python floats are modelled by rationals (the algorithm only adds and
compares durations); the per-chunk `random.uniform(min, max)` draws are
modelled by an arbitrary stream `tgt : Nat -> Rat` of target durations,
indexed by chunk id (the code draws exactly once per emitted chunk).
-/

namespace YtChunks

/-- A transcript segment as produced by the transcript provider:
`{start, duration, text}` (see `smart_chunk_downloader.py`, which reads
`seg.start`, `seg.duration`, `seg.text`). -/
structure Segment where
  start : ℚ
  duration : ℚ
  text : String
deriving DecidableEq, Repr

/-- A chunk record as built by `chunk_smart_duration` (lines 154-162 of
`smart_chunk_downloader.py`).  The source's `end` key is called `stop`
here because `end` is a reserved word in Lean. -/
structure Chunk where
  chunk_id : ℕ
  start : ℚ
  stop : ℚ
  duration : ℚ
  text : String
  segments : ℕ
  target_duration : ℚ
deriving DecidableEq, Repr

/-- Sum of the `duration` fields of a list of segments. -/
def dsum (l : List Segment) : ℚ :=
  (l.map Segment.duration).sum

@[simp] theorem dsum_nil : dsum [] = 0 := rfl

@[simp] theorem dsum_cons (s : Segment) (l : List Segment) :
    dsum (s :: l) = s.duration + dsum l := rfl

/-- The inner `while` loop of `chunk_smart_duration` (lines 115-149),
after its first iteration has unconditionally consumed the chunk's seed
segment.  Given the accumulated `current_duration` and the remaining
segments it returns the pair (segments consumed into the current chunk,
segments left over).  The three branches are, in source order: the
`current_duration < min_duration` catch-up branch (line 131), the stop
condition `current_duration >= target_duration or new_duration >
max_duration` (line 142), and the default consume branch (line 146). -/
def chunkTake (min_duration max_duration target_duration : ℚ) :
    ℚ → List Segment → List Segment × List Segment
  | _, [] => ([], [])
  | current_duration, seg :: rest =>
    if current_duration < min_duration then
      let r := chunkTake min_duration max_duration target_duration
        (current_duration + seg.duration) rest
      (seg :: r.1, r.2)
    else if current_duration ≥ target_duration ∨
        current_duration + seg.duration > max_duration then
      ([], seg :: rest)
    else
      let r := chunkTake min_duration max_duration target_duration
        (current_duration + seg.duration) rest
      (seg :: r.1, r.2)

theorem chunkTake_append (m M t : ℚ) :
    ∀ (l : List Segment) (cur : ℚ),
      (chunkTake m M t cur l).1 ++ (chunkTake m M t cur l).2 = l := by
  intro l
  induction l with
  | nil => intro cur; simp [chunkTake]
  | cons s rest ih =>
    intro cur
    simp only [chunkTake]
    split
    · simpa using ih (cur + s.duration)
    · split
      · simp
      · simpa using ih (cur + s.duration)

theorem chunkTake_snd_length (m M t : ℚ) (cur : ℚ) (l : List Segment) :
    (chunkTake m M t cur l).2.length ≤ l.length := by
  have h := chunkTake_append m M t l cur
  have := congrArg List.length h
  simp only [List.length_append] at this
  omega

/-- Last element of the nonempty list `s :: l` (the source reads
`chunk_segments[-1]` on line 153; the list is provably nonempty, its
head having been consumed unconditionally). -/
def lastSeg : Segment → List Segment → Segment
  | s, [] => s
  | _, t :: ts => lastSeg t ts

/-- The "Create chunk" block of `chunk_smart_duration` (lines 151-162):
builds the chunk record out of the seed segment `seg` and the further
segments `tail` consumed by the inner loop. -/
def mkChunk (chunk_id : ℕ) (target_duration : ℚ) (seg : Segment)
    (tail : List Segment) : Chunk :=
  let chunk_segments := seg :: tail
  let last := lastSeg seg tail
  let chunk_end := last.start + last.duration
  { chunk_id := chunk_id
    start := seg.start
    stop := chunk_end
    duration := chunk_end - seg.start
    text := String.intercalate " " (chunk_segments.map Segment.text)
    segments := chunk_segments.length
    target_duration := target_duration }

/-- The outer `while` loop of `chunk_smart_duration` (lines 104-163):
draws the chunk's target duration `tgt chunk_id`, seeds the chunk with
the segment under the cursor (lines 119-125), runs the inner loop
(`chunkTake`), emits the chunk and recurses on the leftover segments. -/
def chunksAux (tgt : ℕ → ℚ) (min_duration max_duration : ℚ) :
    ℕ → List Segment → List Chunk
  | _, [] => []
  | chunk_id, seg :: rest =>
    mkChunk chunk_id (tgt chunk_id) seg
        (chunkTake min_duration max_duration (tgt chunk_id) seg.duration rest).1 ::
      chunksAux tgt min_duration max_duration (chunk_id + 1)
        (chunkTake min_duration max_duration (tgt chunk_id) seg.duration rest).2
termination_by _ l => l.length
decreasing_by
  simp only [List.length_cons]
  exact Nat.lt_succ_of_le (chunkTake_snd_length _ _ _ _ _)

/-- `chunk_smart_duration(segments, min_duration, max_duration)` (lines
86-165 of `smart_chunk_downloader.py`), with the random draws supplied
by the stream `tgt`.  The `if not segments: return []` guard (line 97)
is subsumed by `chunksAux` returning `[]` on the empty list. -/
def chunk_smart_duration (tgt : ℕ → ℚ) (segments : List Segment)
    (min_duration max_duration : ℚ) : List Chunk :=
  chunksAux tgt min_duration max_duration 0 segments

/-- Ghost companion of `chunksAux`: the list of per-chunk segment lists
(`chunk_segments` on line 110/121/132/146), used to relate the emitted
chunks back to the input segments. -/
def chunkPieces (tgt : ℕ → ℚ) (min_duration max_duration : ℚ) :
    ℕ → List Segment → List (List Segment)
  | _, [] => []
  | chunk_id, seg :: rest =>
    (seg ::
        (chunkTake min_duration max_duration (tgt chunk_id) seg.duration rest).1) ::
      chunkPieces tgt min_duration max_duration (chunk_id + 1)
        (chunkTake min_duration max_duration (tgt chunk_id) seg.duration rest).2
termination_by _ l => l.length
decreasing_by
  simp only [List.length_cons]
  exact Nat.lt_succ_of_le (chunkTake_snd_length _ _ _ _ _)

theorem chunkPieces_flatten_aux (tgt : ℕ → ℚ) (m M : ℚ) :
    ∀ (n : ℕ) (l : List Segment), l.length ≤ n → ∀ (cid : ℕ),
      (chunkPieces tgt m M cid l).flatten = l := by
  intro n
  induction n with
  | zero =>
    intro l hl cid
    have : l = [] := List.length_eq_zero.mp (Nat.le_zero.mp hl)
    subst this
    simp [chunkPieces]
  | succ n ih =>
    intro l hl cid
    match l with
    | [] => simp [chunkPieces]
    | seg :: rest =>
      rw [chunkPieces]
      have hlen : (chunkTake m M (tgt cid) seg.duration rest).2.length ≤ n := by
        have := chunkTake_snd_length m M (tgt cid) seg.duration rest
        simp only [List.length_cons] at hl
        omega
      simp only [List.flatten_cons]
      rw [ih _ hlen (cid + 1)]
      simp [chunkTake_append m M (tgt cid) rest seg.duration]

theorem chunkPieces_flatten (tgt : ℕ → ℚ) (m M : ℚ) (cid : ℕ) (l : List Segment) :
    (chunkPieces tgt m M cid l).flatten = l :=
  chunkPieces_flatten_aux tgt m M l.length l le_rfl cid

theorem chunksAux_text_aux (tgt : ℕ → ℚ) (m M : ℚ) :
    ∀ (n : ℕ) (l : List Segment), l.length ≤ n → ∀ (cid : ℕ),
      (chunksAux tgt m M cid l).map Chunk.text =
        (chunkPieces tgt m M cid l).map
          (fun p => String.intercalate " " (p.map Segment.text)) := by
  intro n
  induction n with
  | zero =>
    intro l hl cid
    have : l = [] := List.length_eq_zero.mp (Nat.le_zero.mp hl)
    subst this
    simp [chunksAux, chunkPieces]
  | succ n ih =>
    intro l hl cid
    match l with
    | [] => simp [chunksAux, chunkPieces]
    | seg :: rest =>
      rw [chunksAux, chunkPieces]
      have hlen : (chunkTake m M (tgt cid) seg.duration rest).2.length ≤ n := by
        have := chunkTake_snd_length m M (tgt cid) seg.duration rest
        simp only [List.length_cons] at hl
        omega
      simp only [List.map_cons]
      rw [ih _ hlen (cid + 1)]
      rfl

theorem chunksAux_text (tgt : ℕ → ℚ) (m M : ℚ) (cid : ℕ) (l : List Segment) :
    (chunksAux tgt m M cid l).map Chunk.text =
      (chunkPieces tgt m M cid l).map
        (fun p => String.intercalate " " (p.map Segment.text)) :=
  chunksAux_text_aux tgt m M l.length l le_rfl cid

/-- **C1** — For every finite input sequence of segments and any values of
the random target draws, the texts of the chunks returned by
`chunk_smart_duration`, in `chunk_id` order, are exactly the space-joins
of an ordered partition of the input segment list into consecutive
pieces: removing the inserted single-space separators recovers the input
segments' texts in original order, with no segment dropped, duplicated
or reordered across chunks. -/
theorem chunk_smart_duration_text_lossless (tgt : ℕ → ℚ)
    (segments : List Segment) (min_duration max_duration : ℚ) :
    (chunk_smart_duration tgt segments min_duration max_duration).map Chunk.text =
        (chunkPieces tgt min_duration max_duration 0 segments).map
          (fun p => String.intercalate " " (p.map Segment.text)) ∧
      (chunkPieces tgt min_duration max_duration 0 segments).flatten = segments :=
  ⟨chunksAux_text tgt min_duration max_duration 0 segments,
   chunkPieces_flatten tgt min_duration max_duration 0 segments⟩

theorem chunksAux_length_aux (tgt : ℕ → ℚ) (m M : ℚ) :
    ∀ (n : ℕ) (l : List Segment), l.length ≤ n → ∀ (cid : ℕ),
      (chunksAux tgt m M cid l).length ≤ l.length := by
  intro n
  induction n with
  | zero =>
    intro l hl cid
    have : l = [] := List.length_eq_zero.mp (Nat.le_zero.mp hl)
    subst this
    simp [chunksAux]
  | succ n ih =>
    intro l hl cid
    match l with
    | [] => simp [chunksAux]
    | seg :: rest =>
      rw [chunksAux]
      have hsnd := chunkTake_snd_length m M (tgt cid) seg.duration rest
      have hlen : (chunkTake m M (tgt cid) seg.duration rest).2.length ≤ n := by
        simp only [List.length_cons] at hl
        omega
      have := ih _ hlen (cid + 1)
      simp only [List.length_cons]
      omega

/-- **C10** — `chunk_smart_duration` terminates on every finite segment
list (it is a total function of this development, defined by well-founded
recursion on the number of remaining segments: every outer iteration
consumes at least one segment, including zero-duration ones), and the
outer loop runs at most `segments.length` times, so at most that many
chunks are emitted. -/
theorem chunk_smart_duration_terminates (tgt : ℕ → ℚ)
    (segments : List Segment) (min_duration max_duration : ℚ) :
    (chunk_smart_duration tgt segments min_duration max_duration).length ≤
      segments.length :=
  chunksAux_length_aux tgt min_duration max_duration segments.length segments
    le_rfl 0

theorem chunksAux_segments_aux (tgt : ℕ → ℚ) (m M : ℚ) :
    ∀ (n : ℕ) (l : List Segment), l.length ≤ n → ∀ (cid : ℕ),
      ∀ c ∈ chunksAux tgt m M cid l, 1 ≤ c.segments := by
  intro n
  induction n with
  | zero =>
    intro l hl cid
    have : l = [] := List.length_eq_zero.mp (Nat.le_zero.mp hl)
    subst this
    simp [chunksAux]
  | succ n ih =>
    intro l hl cid
    match l with
    | [] => simp [chunksAux]
    | seg :: rest =>
      rw [chunksAux]
      intro c hc
      have hlen : (chunkTake m M (tgt cid) seg.duration rest).2.length ≤ n := by
        have := chunkTake_snd_length m M (tgt cid) seg.duration rest
        simp only [List.length_cons] at hl
        omega
      rcases List.mem_cons.mp hc with h | h
      · subst h
        simp [mkChunk]
      · exact ih _ hlen (cid + 1) c h

/-- **C4** — Every chunk emitted by `chunk_smart_duration` contains at
least one segment (`segment_count >= 1`): the seed segment under the
cursor is consumed unconditionally, so no empty chunk is ever emitted,
even when a single segment's own duration exceeds `max_duration`. -/
theorem chunk_smart_duration_no_empty_chunk (tgt : ℕ → ℚ)
    (segments : List Segment) (min_duration max_duration : ℚ)
    (c : Chunk)
    (hc : c ∈ chunk_smart_duration tgt segments min_duration max_duration) :
    1 ≤ c.segments :=
  chunksAux_segments_aux tgt min_duration max_duration segments.length segments
    le_rfl 0 c hc

/-- Witness for **C4**: a concrete one-segment input whose single emitted
chunk (computed explicitly) indeed has `segments >= 1`. -/
theorem chunk_smart_duration_no_empty_chunk_witness :
    1 ≤ (Chunk.mk 0 0 3 3 "a" 1 20).segments :=
  chunk_smart_duration_no_empty_chunk (fun _ => 20)
    [Segment.mk 0 3 "a"] 20 30 (Chunk.mk 0 0 3 3 "a" 1 20)
    (by norm_num [chunk_smart_duration, chunksAux, chunkTake, mkChunk, lastSeg]
        rfl)

/-- Adjacency relation for contiguous segment sequences: the next segment
starts exactly where the previous one ends. -/
def follows (a b : Segment) : Prop :=
  b.start = a.start + a.duration

instance : DecidableRel follows := fun a b =>
  inferInstanceAs (Decidable (b.start = a.start + a.duration))

/-- A segment list is contiguous when each segment starts where the
previous one ends (the spec's "ordered by `start` ascending, contiguous"
input assumption). -/
def Contig (l : List Segment) : Prop :=
  l.Chain' follows

theorem lastSeg_start_duration :
    ∀ (l : List Segment) (s : Segment), Contig (s :: l) →
      (lastSeg s l).start + (lastSeg s l).duration = s.start + dsum (s :: l) := by
  intro l
  induction l with
  | nil => intro s _; simp [lastSeg]
  | cons t ts ih =>
    intro s h
    have h' := List.chain'_cons.mp h
    have hlast := ih t h'.2
    have hts : t.start = s.start + s.duration := h'.1
    simp only [lastSeg, hlast, hts, dsum_cons]
    ring

theorem contig_split (m M t cur : ℚ) (s : Segment) (rest : List Segment)
    (h : Contig (s :: rest)) :
    Contig (s :: (chunkTake m M t cur rest).1) ∧
      Contig ((chunkTake m M t cur rest).2) := by
  have happ := chunkTake_append m M t rest cur
  have hsplit : s :: rest =
      (s :: (chunkTake m M t cur rest).1) ++ (chunkTake m M t cur rest).2 := by
    simp [happ]
  rw [Contig, hsplit] at h
  have h' := List.chain'_append.mp h
  exact ⟨h'.1, h'.2.1⟩

/-- Under contiguity, the `duration` field of an emitted chunk equals the
sum of the durations of its constituent segments. -/
theorem mkChunk_duration (cid : ℕ) (t : ℚ) (s : Segment)
    (tail : List Segment) (h : Contig (s :: tail)) :
    (mkChunk cid t s tail).duration = dsum (s :: tail) := by
  have := lastSeg_start_duration tail s h
  simp only [mkChunk, this]
  ring

theorem chunkTake_break_min (m M t : ℚ) :
    ∀ (l : List Segment) (cur : ℚ),
      (chunkTake m M t cur l).2 = [] ∨
        m ≤ cur + dsum (chunkTake m M t cur l).1 := by
  intro l
  induction l with
  | nil => intro cur; left; simp [chunkTake]
  | cons seg rest ih =>
    intro cur
    simp only [chunkTake]
    split
    · rcases ih (cur + seg.duration) with h | h
      · left; simpa using h
      · right
        simp only [dsum_cons]
        linarith
    · split
      · rename_i hge _
        right
        simp only [dsum_nil]
        have := le_of_not_lt hge
        linarith
      · rcases ih (cur + seg.duration) with h | h
        · left; simpa using h
        · right
          simp only [dsum_cons]
          linarith

theorem mem_dropLast_cons {α : Type} {c a : α} {l : List α}
    (h : c ∈ (a :: l).dropLast) : (c = a ∧ l ≠ []) ∨ c ∈ l.dropLast := by
  cases l with
  | nil => simp at h
  | cons b bs =>
    rw [List.dropLast_cons₂] at h
    rcases List.mem_cons.mp h with h | h
    · exact Or.inl ⟨h, List.cons_ne_nil b bs⟩
    · exact Or.inr h

theorem chunksAux_nil_of (tgt : ℕ → ℚ) (m M : ℚ) (cid : ℕ)
    {l : List Segment} (h : l = []) : chunksAux tgt m M cid l = [] := by
  subst h; simp [chunksAux]

theorem chunksAux_min_aux (tgt : ℕ → ℚ) (m M : ℚ) :
    ∀ (n : ℕ) (l : List Segment), l.length ≤ n → ∀ (cid : ℕ), Contig l →
      ∀ c ∈ (chunksAux tgt m M cid l).dropLast, m ≤ c.duration := by
  intro n
  induction n with
  | zero =>
    intro l hl cid _
    have : l = [] := List.length_eq_zero.mp (Nat.le_zero.mp hl)
    subst this
    simp [chunksAux]
  | succ n ih =>
    intro l hl cid hcontig
    match l with
    | [] => simp [chunksAux]
    | seg :: rest =>
      rw [chunksAux]
      intro c hc
      have hlen : (chunkTake m M (tgt cid) seg.duration rest).2.length ≤ n := by
        have := chunkTake_snd_length m M (tgt cid) seg.duration rest
        simp only [List.length_cons] at hl
        omega
      have hsplit := contig_split m M (tgt cid) seg.duration seg rest hcontig
      rcases mem_dropLast_cons hc with ⟨rfl, hne⟩ | h
      · have hrem : (chunkTake m M (tgt cid) seg.duration rest).2 ≠ [] :=
          fun h0 => hne (chunksAux_nil_of tgt m M (cid + 1) h0)
        have hmin := (chunkTake_break_min m M (tgt cid) rest seg.duration).resolve_left hrem
        rw [mkChunk_duration cid (tgt cid) seg _ hsplit.1]
        simp only [dsum_cons]
        linarith
      · exact ih _ hlen (cid + 1) hsplit.2 c h

/-- **C5** — For contiguous, non-overlapping input segment sequences with
non-negative durations and any target draws, every chunk except possibly
the last has `duration >= min_duration` (or, a fortiori, is a single
segment already exceeding `min_duration`): the inner loop only stops
before the end of the input once the accumulated duration has reached
`min_duration`. -/
theorem chunk_smart_duration_min_duration (tgt : ℕ → ℚ)
    (segments : List Segment) (min_duration max_duration : ℚ)
    (hcontig : Contig segments)
    (hnn : ∀ s ∈ segments, 0 ≤ s.duration)
    (c : Chunk)
    (hc : c ∈ (chunk_smart_duration tgt segments min_duration max_duration).dropLast) :
    min_duration ≤ c.duration ∨
      (c.segments = 1 ∧ min_duration < c.duration) :=
  Or.inl (chunksAux_min_aux tgt min_duration max_duration segments.length
    segments le_rfl 0 hcontig c hc)

/-- Witness for **C5**: two contiguous 25-second segments with bounds
`[20, 30]` and constant target draw `20` produce a first (non-last) chunk
of duration `25 ≥ 20`. -/
theorem chunk_smart_duration_min_duration_witness :
    (20 : ℚ) ≤ (Chunk.mk 0 0 25 25 "a" 1 20).duration ∨
      ((Chunk.mk 0 0 25 25 "a" 1 20).segments = 1 ∧
        (20 : ℚ) < (Chunk.mk 0 0 25 25 "a" 1 20).duration) :=
  chunk_smart_duration_min_duration (fun _ => 20)
    [Segment.mk 0 25 "a", Segment.mk 25 25 "b"] 20 30
    (by constructor <;> simp [follows])
    (by intro s hs; fin_cases hs <;> norm_num)
    (Chunk.mk 0 0 25 25 "a" 1 20)
    (by norm_num [chunk_smart_duration, chunksAux, chunkTake, mkChunk, lastSeg]
        rfl)

/-- Ghost accumulator for the max-duration invariant: the accumulated
duration of the current chunk just before its most recent segment was
consumed (`pv` if no further segment was consumed beyond the point where
the accumulator stood at `cur`). -/
def dropLastSum (pv cur : ℚ) : List Segment → ℚ
  | [] => pv
  | a :: tk => cur + dsum ((a :: tk).dropLast)

theorem dropLastSum_nil (pv cur : ℚ) : dropLastSum pv cur [] = pv := rfl

theorem dropLastSum_cons (pv cur : ℚ) (seg : Segment) (tk : List Segment) :
    dropLastSum pv cur (seg :: tk) = dropLastSum cur (cur + seg.duration) tk := by
  cases tk with
  | nil => simp [dropLastSum]
  | cons b bs =>
    simp only [dropLastSum, List.dropLast_cons₂, dsum_cons]
    ring

theorem chunkTake_max_aux (m M t : ℚ) :
    ∀ (l : List Segment) (cur pv : ℚ), (pv < m ∨ cur ≤ M) →
      dropLastSum pv cur (chunkTake m M t cur l).1 < m ∨
        cur + dsum (chunkTake m M t cur l).1 ≤ M := by
  intro l
  induction l with
  | nil =>
    intro cur pv hpv
    simpa [chunkTake, dropLastSum] using hpv
  | cons seg rest ih =>
    intro cur pv hpv
    simp only [chunkTake]
    split
    · rename_i hlt
      have := ih (cur + seg.duration) cur (Or.inl hlt)
      simp only
      rw [dropLastSum_cons]
      simp only [dsum_cons]
      rcases this with h | h
      · exact Or.inl h
      · right; linarith
    · split
      · rename_i hge hstop
        simpa [dropLastSum] using hpv
      · rename_i hge hstop
        push_neg at hstop
        have := ih (cur + seg.duration) cur (Or.inr hstop.2)
        simp only
        rw [dropLastSum_cons]
        simp only [dsum_cons]
        rcases this with h | h
        · exact Or.inl h
        · right; linarith

/-- The max-duration invariant of a single chunk's segment piece: the
accumulated duration exceeds `max_duration` only if it was still below
`min_duration` just before the chunk's last segment was consumed. -/
theorem piece_max_bound (m M t : ℚ) (hm : 0 < m) (seg : Segment)
    (rest : List Segment) :
    dsum ((seg :: (chunkTake m M t seg.duration rest).1).dropLast) < m ∨
      dsum (seg :: (chunkTake m M t seg.duration rest).1) ≤ M := by
  have h := chunkTake_max_aux m M t rest seg.duration 0 (Or.inl hm)
  rcases h with h | h
  · left
    cases htk : (chunkTake m M t seg.duration rest).1 with
    | nil => simpa [htk] using hm
    | cons b bs =>
      rw [htk] at h
      simp only [dropLastSum] at h
      rw [List.dropLast_cons₂]
      simp only [dsum_cons]
      linarith
  · right
    simp only [dsum_cons]
    linarith

theorem chunkPieces_max_aux (tgt : ℕ → ℚ) (m M : ℚ) (hm : 0 < m) :
    ∀ (n : ℕ) (l : List Segment), l.length ≤ n → ∀ (cid : ℕ),
      ∀ p ∈ chunkPieces tgt m M cid l,
        dsum p ≤ M ∨ dsum p.dropLast < m := by
  intro n
  induction n with
  | zero =>
    intro l hl cid
    have : l = [] := List.length_eq_zero.mp (Nat.le_zero.mp hl)
    subst this
    simp [chunkPieces]
  | succ n ih =>
    intro l hl cid
    match l with
    | [] => simp [chunkPieces]
    | seg :: rest =>
      rw [chunkPieces]
      intro p hp
      have hlen : (chunkTake m M (tgt cid) seg.duration rest).2.length ≤ n := by
        have := chunkTake_snd_length m M (tgt cid) seg.duration rest
        simp only [List.length_cons] at hl
        omega
      rcases List.mem_cons.mp hp with h | h
      · subst h
        exact (piece_max_bound m M (tgt cid) hm seg rest).symm.imp id id
      · exact ih _ hlen (cid + 1) p h

theorem chunksAux_duration_aux (tgt : ℕ → ℚ) (m M : ℚ) :
    ∀ (n : ℕ) (l : List Segment), l.length ≤ n → ∀ (cid : ℕ), Contig l →
      (chunksAux tgt m M cid l).map Chunk.duration =
        (chunkPieces tgt m M cid l).map dsum := by
  intro n
  induction n with
  | zero =>
    intro l hl cid _
    have : l = [] := List.length_eq_zero.mp (Nat.le_zero.mp hl)
    subst this
    simp [chunksAux, chunkPieces]
  | succ n ih =>
    intro l hl cid hcontig
    match l with
    | [] => simp [chunksAux, chunkPieces]
    | seg :: rest =>
      rw [chunksAux, chunkPieces]
      have hlen : (chunkTake m M (tgt cid) seg.duration rest).2.length ≤ n := by
        have := chunkTake_snd_length m M (tgt cid) seg.duration rest
        simp only [List.length_cons] at hl
        omega
      have hsplit := contig_split m M (tgt cid) seg.duration seg rest hcontig
      simp only [List.map_cons]
      rw [ih _ hlen (cid + 1) hsplit.2,
        mkChunk_duration cid (tgt cid) seg _ hsplit.1]

/-- **C2, counterexample** — two contiguous segments of 19 seconds each,
with `min_duration = 20`, `max_duration = 30` and target draw `20`
(inside `[20, 30]`), produce a single chunk of `duration = 38 > 30` with
`segments = 2`: a multi-segment chunk exceeds `max_duration`, refuting
"no chunk exceeds `max_duration` unless it is a single-segment chunk". -/
theorem chunk_smart_duration_max_counterexample :
    chunk_smart_duration (fun _ => 20)
        [Segment.mk 0 19 "a", Segment.mk 19 19 "b"] 20 30 =
      [Chunk.mk 0 0 38 38 "a b" 2 20] ∧
    ¬((38 : ℚ) ≤ 30 ∨ (2 : ℕ) = 1) := by
  constructor
  · norm_num [chunk_smart_duration, chunksAux, chunkTake, mkChunk, lastSeg]
    rfl
  · norm_num

/-- **C2, amended** — For contiguous input segment sequences with
non-negative durations, `0 < min_duration`, and any target draws: every
chunk's `duration` (which equals the sum of its segments' durations) is
at most `max_duration`, unless the chunk's accumulated duration before
its last segment was consumed — the sum of all but its last segment's
durations — was still below `min_duration` (which in particular covers a
single-segment chunk whose one segment alone exceeds `max_duration`). -/
theorem chunk_smart_duration_max_duration (tgt : ℕ → ℚ)
    (segments : List Segment) (min_duration max_duration : ℚ)
    (hm : 0 < min_duration) (hcontig : Contig segments)
    (hnn : ∀ s ∈ segments, 0 ≤ s.duration) :
    (chunk_smart_duration tgt segments min_duration max_duration).map
        Chunk.duration =
      (chunkPieces tgt min_duration max_duration 0 segments).map dsum ∧
    ∀ p ∈ chunkPieces tgt min_duration max_duration 0 segments,
      dsum p ≤ max_duration ∨ dsum p.dropLast < min_duration :=
  ⟨chunksAux_duration_aux tgt min_duration max_duration segments.length
      segments le_rfl 0 hcontig,
   chunkPieces_max_aux tgt min_duration max_duration hm segments.length
      segments le_rfl 0⟩

/-- Witness for **C2, amended**: a single oversized 40-second segment with
bounds `[20, 30]`; its one-piece chunking satisfies the amended bound via
the below-minimum escape clause. -/
theorem chunk_smart_duration_max_duration_witness :
    (chunk_smart_duration (fun _ => 25) [Segment.mk 0 40 "a"] 20 30).map
        Chunk.duration =
      (chunkPieces (fun _ => 25) 20 30 0 [Segment.mk 0 40 "a"]).map dsum ∧
    ∀ p ∈ chunkPieces (fun _ => 25) 20 30 0 [Segment.mk 0 40 "a"],
      dsum p ≤ 30 ∨ dsum p.dropLast < 20 :=
  chunk_smart_duration_max_duration (fun _ => 25) [Segment.mk 0 40 "a"] 20 30
    (by norm_num)
    (by simp [Contig])
    (by intro s hs; simp_all)
/-- The spec's scenario input: 10 segments of 3 seconds each, starting at
t = 0, 3, 6, ..., 27. -/
def tenSegments : List Segment :=
  [Segment.mk 0 3 "s0", Segment.mk 3 3 "s1", Segment.mk 6 3 "s2",
   Segment.mk 9 3 "s3", Segment.mk 12 3 "s4", Segment.mk 15 3 "s5",
   Segment.mk 18 3 "s6", Segment.mk 21 3 "s7", Segment.mk 24 3 "s8",
   Segment.mk 27 3 "s9"]

/-- **C3, counterexample** — on the scenario input (10 segments of 3 s,
bounds `[20, 30]`) the target draw `20`, which lies in `[20, 30]`,
produces **two** chunks, not one: the accumulated duration passes
`min_duration` at 21 s, and 21 ≥ 20 fires the stop condition, so the
first chunk holds only 7 segments.  This refutes "exactly one chunk for
every possible value of the random target-duration draws in `[20, 30]`". -/
theorem scenario_ten_segments_counterexample :
    ((20 : ℚ) ≤ 20 ∧ (20 : ℚ) ≤ 30) ∧
    (chunk_smart_duration (fun _ => 20) tenSegments 20 30).length = 2 := by
  refine ⟨by norm_num, ?_⟩
  norm_num [chunk_smart_duration, chunksAux, chunkTake, mkChunk, lastSeg,
    tenSegments]

/-- **C3, amended** — on the scenario input (10 segments of 3 s each at
t = 0, 3, ..., 27, bounds `[20, 30]`), `chunk_smart_duration` returns
exactly one chunk covering all 10 segments, with `segments = 10` and
`duration = 30`, whenever the first target draw exceeds 27 (for first
draws ≤ 27 the stop condition fires earlier and more than one chunk is
emitted, as the counterexample shows). -/
theorem scenario_ten_segments_single_chunk (tgt : ℕ → ℚ)
    (h : 27 < tgt 0) :
    chunk_smart_duration tgt tenSegments 20 30 =
      [Chunk.mk 0 0 30 30 "s0 s1 s2 s3 s4 s5 s6 s7 s8 s9" 10 (tgt 0)] := by
  have hn1 : ¬(tgt 0 ≤ 21) := by linarith
  have hn2 : ¬(tgt 0 ≤ 24) := by linarith
  have hn3 : ¬(tgt 0 ≤ 27) := by linarith
  norm_num [chunk_smart_duration, chunksAux, chunkTake, mkChunk, lastSeg,
    tenSegments, hn1, hn2, hn3]
  rfl

/-- Witness for **C3, amended**: the constant draw 28 (inside `(27, 30]`)
yields the single 10-segment chunk of duration 30. -/
theorem scenario_ten_segments_single_chunk_witness :
    chunk_smart_duration (fun _ => 28) tenSegments 20 30 =
      [Chunk.mk 0 0 30 30 "s0 s1 s2 s3 s4 s5 s6 s7 s8 s9" 10 28] :=
  scenario_ten_segments_single_chunk (fun _ => 28) (by norm_num)
/-- Result dictionary of `download_transcript_chunks` as inspected by the
main loop: the `success` and `error` keys (the loop reads nothing else to
steer control flow; chunk counts feed only the printed statistics). -/
structure DlResult where
  success : Bool
  error : String
deriving DecidableEq, Repr

/-- Python's substring test `needle in hay` on strings, as used by
`"429" in error_msg` (line 236 of `smart_chunk_downloader.py`). -/
def pyIn (needle hay : String) : Bool :=
  decide (needle.toList <:+: hay.toList)

/-- Outcome of the one outbound provider call `api.fetch(video_id, ...)`
for a video: either a transcript (a list of segments) or a raised
exception carrying a message text. -/
inductive ProviderOutcome where
  | fetched (segments : List Segment)
  | raise (msg : String)

/-- `download_transcript_chunks` (lines 171-246 of
`smart_chunk_downloader.py`), restricted to the fields the main loop
inspects: an empty transcript reports `No segments found` (lines
178-183); an exception whose text contains `"429"` or
`"Too Many Requests"` reports `RateLimited` (lines 234-241); any other
exception reports the first 100 characters of its text (lines 242-246);
a nonempty transcript reports success (file writing is I/O and outside
the model; `result.get('error', '')` yields `""` on success). -/
def download_transcript_chunks (outcome : ProviderOutcome) : DlResult :=
  match outcome with
  | .fetched segments =>
    if segments.isEmpty then { success := false, error := "No segments found" }
    else { success := true, error := "" }
  | .raise e =>
    let error_msg := e
    if pyIn "429" error_msg || pyIn "Too Many Requests" error_msg then
      { success := false, error := "RateLimited" }
    else
      { success := false, error := error_msg.take 100 }

/-- State threaded through the main loop (lines 256-313):
`downloaded` is the completed set (kept as a list in first-insertion
order), `results` keeps `(video_id, success, error)` per processed video,
`processed` counts processed videos, `saves` logs every snapshot written
to the progress file, `rate_limited` is the early-exit flag, and
`fetched` is a ghost log of the videos for which a provider request was
actually issued. -/
structure LoopState where
  downloaded : List String
  results : List (String × Bool × String)
  processed : ℕ
  saves : List (List String)
  rate_limited : Bool
  fetched : List String
deriving DecidableEq, Repr

/-- The periodic progress save (lines 293-300): writes the current
completed set whenever `processed % SAVE_EVERY == 0`. -/
def maybeSave (save_every : ℕ) (st : LoopState) : LoopState :=
  if st.processed % save_every == 0 then
    { st with saves := st.saves ++ [st.downloaded] }
  else st

@[simp] theorem maybeSave_downloaded (n : ℕ) (st : LoopState) :
    (maybeSave n st).downloaded = st.downloaded := by
  rw [maybeSave]; split <;> rfl

@[simp] theorem maybeSave_results (n : ℕ) (st : LoopState) :
    (maybeSave n st).results = st.results := by
  rw [maybeSave]; split <;> rfl

@[simp] theorem maybeSave_processed (n : ℕ) (st : LoopState) :
    (maybeSave n st).processed = st.processed := by
  rw [maybeSave]; split <;> rfl

@[simp] theorem maybeSave_rate_limited (n : ℕ) (st : LoopState) :
    (maybeSave n st).rate_limited = st.rate_limited := by
  rw [maybeSave]; split <;> rfl

@[simp] theorem maybeSave_fetched (n : ℕ) (st : LoopState) :
    (maybeSave n st).fetched = st.fetched := by
  rw [maybeSave]; split <;> rfl

theorem maybeSave_saves_length (n : ℕ) (st : LoopState) :
    (maybeSave n st).saves.length =
      if st.processed % n == 0 then st.saves.length + 1
      else st.saves.length := by
  rw [maybeSave]; split <;> simp_all

/-- The `for i, video_id in enumerate(batch_videos)` main loop (lines
261-305): per video it issues the provider request, then either adds the
video to the completed set (success), breaks out with the rate-limited
flag set — before recording the result or counting the video (the
`break` on line 278 precedes lines 282-300) — or records the error and
continues; after recording, it counts the video and fires the periodic
progress save.  The inter-request `time.sleep` is timing-only and not
modelled. -/
def runLoop (fetch : String → ProviderOutcome) (save_every : ℕ) :
    List String → LoopState → LoopState
  | [], st => st
  | video_id :: rest, st =>
    let st0 : LoopState := { st with fetched := st.fetched ++ [video_id] }
    let result := download_transcript_chunks (fetch video_id)
    if result.success then
      let st1 : LoopState := { st0 with
        downloaded :=
          if video_id ∈ st0.downloaded then st0.downloaded
          else st0.downloaded ++ [video_id] }
      let st2 : LoopState := { st1 with
        results := st1.results ++ [(video_id, result.success, result.error)],
        processed := st1.processed + 1 }
      runLoop fetch save_every rest (maybeSave save_every st2)
    else if result.error == "RateLimited" then
      { st0 with rate_limited := true }
    else
      let st2 : LoopState := { st0 with
        results := st0.results ++ [(video_id, result.success, result.error)],
        processed := st0.processed + 1 }
      runLoop fetch save_every rest (maybeSave save_every st2)

/-- Initial main-loop state (lines 256-259, with no prior progress). -/
def initLoopState : LoopState :=
  { downloaded := [], results := [], processed := 0, saves := [],
    rate_limited := false, fetched := [] }

/-- A full run: the loop over the batch followed by the unconditional
final progress save (lines 307-313), which executes on the normal exit
and on the rate-limited `break` alike. -/
def mainRunState (fetch : String → ProviderOutcome) (save_every : ℕ)
    (batch_videos : List String) : LoopState :=
  let st := runLoop fetch save_every batch_videos initLoopState
  { st with saves := st.saves ++ [st.downloaded] }

/-- The `results` entry recorded for a processed video (lines 282-288,
projected to the `video_id`, `success` and `error` keys). -/
def resultEntry (fetch : String → ProviderOutcome) (video_id : String) :
    String × Bool × String :=
  (video_id, (download_transcript_chunks (fetch video_id)).success,
    (download_transcript_chunks (fetch video_id)).error)
/-- **C7** — If every video in `pre` classifies as success or as a
non-rate-limit error, and video `v` classifies as `RateLimited` (its
provider exception text contains `"429"` or `"Too Many Requests"`), then
the main loop run on `pre ++ v :: post` issues provider requests exactly
for `pre ++ [v]` — no video after `v` is fetched — sets the rate-limited
flag, and has recorded a `results` entry for every video of `pre` (each
non-rate-limit error was recorded and the loop continued past it). -/
theorem rate_limited_stops_loop (fetch : String → ProviderOutcome)
    (save_every : ℕ) (pre post : List String) (v : String) (st : LoopState)
    (hpre : ∀ u ∈ pre,
      ¬((download_transcript_chunks (fetch u)).success = false ∧
        (download_transcript_chunks (fetch u)).error = "RateLimited"))
    (hv : (download_transcript_chunks (fetch v)).success = false ∧
      (download_transcript_chunks (fetch v)).error = "RateLimited") :
    (runLoop fetch save_every (pre ++ v :: post) st).fetched =
        st.fetched ++ pre ++ [v] ∧
      (runLoop fetch save_every (pre ++ v :: post) st).rate_limited = true ∧
      (runLoop fetch save_every (pre ++ v :: post) st).results =
        st.results ++ pre.map (resultEntry fetch) := by
  induction pre generalizing st with
  | nil =>
    simp only [List.nil_append, runLoop, hv.1, hv.2]
    simp
  | cons u us ih =>
    have hu := hpre u (by simp)
    have hus : ∀ x ∈ us,
        ¬((download_transcript_chunks (fetch x)).success = false ∧
          (download_transcript_chunks (fetch x)).error = "RateLimited") :=
      fun x hx => hpre x (by simp [hx])
    by_cases hs : (download_transcript_chunks (fetch u)).success = true
    · simp only [List.cons_append, runLoop, hs]
      simp only [if_true, List.append_eq]
      refine ⟨?_, ?_, ?_⟩
      · rw [(ih _ hus).1]; simp
      · exact (ih _ hus).2.1
      · rw [(ih _ hus).2.2]; simp [resultEntry, hs]
    · have hs' : (download_transcript_chunks (fetch u)).success = false :=
        Bool.eq_false_iff.mpr (fun h => hs h)
      have herr : (download_transcript_chunks (fetch u)).error ≠ "RateLimited" :=
        fun h => hu ⟨hs', h⟩
      simp only [List.cons_append, runLoop, hs', Bool.false_eq_true, if_false,
        beq_iff_eq, herr, List.append_eq]
      refine ⟨?_, ?_, ?_⟩
      · rw [(ih _ hus).1]; simp
      · exact (ih _ hus).2.1
      · rw [(ih _ hus).2.2]; simp [resultEntry, hs']

/-- Demonstration fetch oracle for the rate-limit claims: `"a"` raises a
generic error, `"c"` raises an HTTP 429 error, every other id yields a
one-segment transcript. -/
def demoFetch : String → ProviderOutcome := fun video_id =>
  if video_id = "a" then ProviderOutcome.raise "boom"
  else if video_id = "c" then
    ProviderOutcome.raise "HTTP Error 429: Too Many Requests"
  else ProviderOutcome.fetched [Segment.mk 0 3 "x"]

set_option maxRecDepth 4000 in
/-- Witness for **C7**: with `demoFetch`, the batch
`["a", "b", "c", "d"]` fetches only `["a", "b", "c"]` (the error on
`"a"` is recorded and passed over, `"c"` rate-limits, `"d"` is never
fetched) and sets the rate-limited flag. -/
theorem rate_limited_stops_loop_witness :
    (runLoop demoFetch 5 (["a", "b"] ++ "c" :: ["d"]) initLoopState).fetched =
        initLoopState.fetched ++ ["a", "b"] ++ ["c"] ∧
      (runLoop demoFetch 5 (["a", "b"] ++ "c" :: ["d"])
          initLoopState).rate_limited = true ∧
      (runLoop demoFetch 5 (["a", "b"] ++ "c" :: ["d"])
          initLoopState).results =
        initLoopState.results ++ ["a", "b"].map (resultEntry demoFetch) :=
  rate_limited_stops_loop demoFetch 5 ["a", "b"] ["d"] "c" initLoopState
    (by decide) (by decide)

set_option maxRecDepth 8000 in
/-- **C8, counterexample** — a run of five videos that all fail with a
generic provider error (`SAVE_EVERY = 5`): no video succeeds — the
completed set stays empty — yet the loop performs a periodic progress
save (one snapshot of the empty set), because the save counter counts
*processed* videos (line 290: `processed += 1` runs on failures too),
not *successful* ones.  Under the claim "persists ... after every N
successful videos" this run would perform no periodic save at all. -/
theorem progress_save_counterexample :
    (runLoop (fun _ => ProviderOutcome.raise "boom") 5
        ["v1", "v2", "v3", "v4", "v5"] initLoopState).downloaded = [] ∧
      (runLoop (fun _ => ProviderOutcome.raise "boom") 5
        ["v1", "v2", "v3", "v4", "v5"] initLoopState).saves = [[]] := by
  constructor <;> rfl

theorem runLoop_saves_length (fetch : String → ProviderOutcome)
    (save_every : ℕ) :
    ∀ (vids : List String) (st : LoopState),
      st.saves.length = st.processed / save_every →
      (runLoop fetch save_every vids st).saves.length =
        (runLoop fetch save_every vids st).processed / save_every := by
  intro vids
  induction vids with
  | nil => intro st h; simpa [runLoop] using h
  | cons v rest ih =>
    intro st h
    rw [runLoop]
    have step : ∀ st2 : LoopState,
        st2.saves.length = st.saves.length →
        st2.processed = st.processed + 1 →
        (maybeSave save_every st2).saves.length =
          (maybeSave save_every st2).processed / save_every := by
      intro st2 hsv hpr
      rw [maybeSave_saves_length, maybeSave_processed, hsv, hpr, h,
        Nat.succ_div]
      by_cases hd : save_every ∣ st.processed + 1
      · rw [if_pos hd, if_pos (by simpa [Nat.beq_eq] using
          Nat.dvd_iff_mod_eq_zero.mp hd)]
      · rw [if_neg hd, if_neg (by
          simp only [Nat.beq_eq, beq_iff_eq]
          exact fun hmod => hd (Nat.dvd_iff_mod_eq_zero.mpr hmod)),
          Nat.add_zero]
    by_cases hs : (download_transcript_chunks (fetch v)).success = true
    · simp only [hs, if_true]
      exact ih _ (step _ rfl rfl)
    · have hs' : (download_transcript_chunks (fetch v)).success = false :=
        Bool.eq_false_iff.mpr (fun hx => hs hx)
      simp only [hs', Bool.false_eq_true, if_false]
      by_cases he : (download_transcript_chunks (fetch v)).error = "RateLimited"
      · simp only [he, beq_self_eq_true, if_true]
        simpa using h
      · simp only [beq_iff_eq, he, if_false]
        exact ih _ (step _ rfl rfl)

/-- **C8, amended** — the progress tracker persists the completed set
after every `SAVE_EVERY` *processed* videos (successful or failed alike;
the video that triggers the rate-limit break is not counted), and
unconditionally persists once more at run end — also on the rate-limited
early exit — with the final snapshot being the run's completed set: a
full run performs exactly `processed / SAVE_EVERY` periodic saves plus
the one final save. -/
theorem progress_saves (fetch : String → ProviderOutcome)
    (save_every : ℕ) (batch_videos : List String) :
    (mainRunState fetch save_every batch_videos).saves.length =
        (runLoop fetch save_every batch_videos initLoopState).processed /
          save_every + 1 ∧
      (mainRunState fetch save_every batch_videos).saves.getLast? =
        some ((runLoop fetch save_every batch_videos
          initLoopState).downloaded) := by
  constructor
  · have := runLoop_saves_length fetch save_every batch_videos initLoopState
      (by simp [initLoopState])
    simp only [mainRunState, List.length_append, List.length_cons,
      List.length_nil]
    omega
  · simp [mainRunState]
/-- State of the merge loop of `merge_transcript_batches.py` (lines
60-102), projected to the video-directory level: `out` holds the video
directories present in the unified output directory, each paired with a
ghost annotation — the index of the batch directory it was copied from
(the source does not record this; it is carried to state "first
encountered" precisely); `errors` lists the video ids whose copy raised
(lines 100-102). -/
structure MergeState where
  out : List (String × ℕ)
  errors : List String
deriving DecidableEq, Repr

/-- One iteration of the inner merge loop (lines 71-102): if the
destination directory already exists, skip — `continue` without touching
the error list (lines 76-78); otherwise attempt the copy: a raised copy
error appends to `errors` (lines 100-102), success adds the directory.
`copy_fails` abstracts whether `shutil.copytree` raises for this id. -/
def mergeStep (copy_fails : String → Bool) (st : MergeState)
    (bv : ℕ × String) : MergeState :=
  if bv.2 ∈ st.out.map Prod.fst then st
  else if copy_fails bv.2 then { st with errors := st.errors ++ [bv.2] }
  else { st with out := st.out ++ [(bv.2, bv.1)] }

/-- The full merge (lines 64-102): batch directories are processed in
sorted name order — modelled by taking `batch_dirs` as the already
sorted list of batches (the source sorts the names on line 30), each
batch contributing its video directories in enumeration order. -/
def mergeBatches (copy_fails : String → Bool)
    (batch_dirs : List (List String)) : MergeState :=
  ((batch_dirs.enum.map (fun bi => bi.2.map (fun v => (bi.1, v)))).flatten).foldl
    (mergeStep copy_fails) { out := [], errors := [] }

theorem mergeFold_inv (copy_fails : String → Bool) :
    ∀ (l : List (ℕ × String)) (st : MergeState),
      (st.out.map Prod.fst).Nodup → (∀ v ∈ st.errors, copy_fails v = true) →
      ((l.foldl (mergeStep copy_fails) st).out.map Prod.fst).Nodup ∧
        ∀ v ∈ (l.foldl (mergeStep copy_fails) st).errors,
          copy_fails v = true := by
  intro l
  induction l with
  | nil => intro st h1 h2; exact ⟨h1, h2⟩
  | cons bv rest ih =>
    intro st h1 h2
    simp only [List.foldl_cons]
    apply ih
    · rw [mergeStep]
      split
      · exact h1
      · split
        · exact h1
        · rename_i hmem _
          simp only [List.map_append, List.map_cons, List.map_nil]
          rw [List.nodup_append]
          exact ⟨h1, List.nodup_singleton _,
            List.disjoint_singleton.mpr hmem⟩
    · rw [mergeStep]
      split
      · exact h2
      · split
        · rename_i hfail
          intro v hv
          rcases List.mem_append.mp hv with h | h
          · exact h2 v h
          · rw [List.mem_singleton.mp h]
            exact hfail
        · exact h2

/-- **C6** — In the merge, a video directory whose id already exists in
the unified output is skipped and the skip is never recorded as a copy
error: for every copy-failure oracle and batch list, the output contains
each video id at most once and every entry of the error list is an
actual copy failure; in particular, merging two batch directories that
both contain video `abc123` (with no copy failures) yields exactly one
`abc123` directory — the one from the first batch encountered (batch
index 0) — and an empty error list. -/
theorem merge_first_batch_wins (copy_fails : String → Bool)
    (batch_dirs : List (List String)) :
    (((mergeBatches copy_fails batch_dirs).out.map Prod.fst).Nodup ∧
      ∀ v ∈ (mergeBatches copy_fails batch_dirs).errors,
        copy_fails v = true) ∧
    mergeBatches (fun _ => false) [["abc123"], ["abc123"]] =
      { out := [("abc123", 0)], errors := [] } := by
  refine ⟨mergeFold_inv copy_fails _ _ (by simp) (by simp), ?_⟩
  rfl

/-- Witness for **C6**: with an always-failing copy oracle on a
single-video batch, the id lands in the error list, and the theorem's
error-list clause applies to it. -/
theorem merge_first_batch_wins_witness :
    "x" ∈ (mergeBatches (fun _ => true) [["x"]]).errors ∧
      (fun _ : String => true) "x" = true :=
  ⟨by decide,
   (merge_first_batch_wins (fun _ => true) [["x"]]).1.2 "x" (by decide)⟩

/-- `num_batches = math.ceil(len(video_ids) / VIDEOS_PER_BATCH)` (line
35 of `prepare_bangla_batches.py`), as the usual natural-number ceiling
division. -/
def num_batches (n batch_size : ℕ) : ℕ :=
  (n + batch_size - 1) / batch_size

/-- The batch creation loop of `prepare_bangla_batches.py` (lines
45-49): batch `i` is the Python slice
`video_ids[i*batch_size : min((i+1)*batch_size, len(video_ids))]`. -/
def makeBatches (video_ids : List String) (batch_size : ℕ) :
    List (List String) :=
  (List.range (num_batches video_ids.length batch_size)).map fun i =>
    (video_ids.drop (i * batch_size)).take
      (min ((i + 1) * batch_size) video_ids.length - i * batch_size)

theorem makeBatches_flatten_aux (ids : List String) (bs : ℕ) :
    ∀ m : ℕ,
      ((List.range m).map (fun i =>
          (ids.drop (i * bs)).take
            (min ((i + 1) * bs) ids.length - i * bs))).flatten =
        ids.take (min (m * bs) ids.length) := by
  intro m
  induction m with
  | zero => simp
  | succ m ih =>
    rw [List.range_succ, List.map_append, List.flatten_append, ih]
    simp only [List.map_cons, List.map_nil, List.flatten_cons,
      List.flatten_nil, List.append_nil]
    have hmul : (m + 1) * bs = m * bs + bs := Nat.succ_mul m bs
    rcases le_or_lt ids.length (m * bs) with h | h
    · have h1 : min (m * bs) ids.length = ids.length := by omega
      have h2 : min ((m + 1) * bs) ids.length = ids.length := by omega
      rw [h1, h2, List.take_length, List.drop_eq_nil_of_le h]
      simp
    · have h1 : min (m * bs) ids.length = m * bs := by omega
      rw [h1, show min ((m + 1) * bs) ids.length =
          m * bs + (min ((m + 1) * bs) ids.length - m * bs) from by omega,
        List.take_add]
      have h2 : m * bs + (min ((m + 1) * bs) ids.length - m * bs) - m * bs =
          min ((m + 1) * bs) ids.length - m * bs := by omega
      rw [h2]

theorem num_batches_mul_ge (n bs : ℕ) (hbs : 0 < bs) :
    n ≤ num_batches n bs * bs := by
  rcases Nat.eq_zero_or_pos n with h0 | hpos
  · simp [h0]
  · obtain ⟨k, rfl⟩ : ∃ k, n = k + 1 := ⟨n - 1, by omega⟩
    have hq : num_batches (k + 1) bs = k / bs + 1 := by
      rw [num_batches, show k + 1 + bs - 1 = k + bs from by omega,
        Nat.add_div_right _ hbs]
    rw [hq]
    exact Nat.succ_le_of_lt ((Nat.div_lt_iff_lt_mul hbs).mp (Nat.lt_succ_self _))

set_option maxRecDepth 20000 in
/-- **C9** — The batch splitter partitions a video-id list into
`ceil(n / batch_size)` contiguous, non-overlapping slices in original
order, covering every identifier exactly once (their concatenation is
the input), each slice of exactly `batch_size` ids except possibly the
last, which is never larger; it is a pure function, hence deterministic;
and splitting 120 identifiers with batch size 50 yields exactly 3
batches of sizes 50, 50, 20. -/
theorem makeBatches_partition (video_ids : List String) (batch_size : ℕ)
    (hbs : 0 < batch_size) :
    (makeBatches video_ids batch_size).length =
        num_batches video_ids.length batch_size ∧
      (makeBatches video_ids batch_size).flatten = video_ids ∧
      (∀ l ∈ (makeBatches video_ids batch_size).dropLast,
        l.length = batch_size) ∧
      (∀ l ∈ makeBatches video_ids batch_size, l.length ≤ batch_size) ∧
      (makeBatches ((List.range 120).map (fun k => toString k)) 50).map
          List.length = [50, 50, 20] := by
  refine ⟨by simp [makeBatches], ?_, ?_, ?_, by rfl⟩
  · rw [makeBatches, makeBatches_flatten_aux]
    have := num_batches_mul_ge video_ids.length batch_size hbs
    rw [show min (num_batches video_ids.length batch_size * batch_size)
        video_ids.length = video_ids.length from by omega,
      List.take_length]
  · rcases hnb : num_batches video_ids.length batch_size with _ | k
    · intro l hl
      rw [makeBatches, hnb] at hl
      simp at hl
    · intro l hl
      rw [makeBatches, hnb, List.range_succ, List.map_append,
        List.map_cons, List.map_nil, List.dropLast_concat] at hl
      obtain ⟨i, hi, rfl⟩ := List.mem_map.mp hl
      have hik : i < k := List.mem_range.mp hi
      have hpos : 0 < video_ids.length := by
        by_contra h0
        have hz : video_ids.length = 0 := by omega
        rw [num_batches, hz] at hnb
        have hdiv : (0 + batch_size - 1) / batch_size = 0 :=
          Nat.div_eq_of_lt (by omega)
        omega
      obtain ⟨j, hj⟩ : ∃ j, video_ids.length = j + 1 :=
        ⟨video_ids.length - 1, by omega⟩
      have hq : num_batches video_ids.length batch_size =
          j / batch_size + 1 := by
        rw [num_batches, hj, show j + 1 + batch_size - 1 = j + batch_size from
          by omega, Nat.add_div_right _ hbs]
      have hk : k = j / batch_size := by omega
      have hle : (i + 1) * batch_size ≤ j + 1 := by
        have h1 : (i + 1) * batch_size ≤ (j / batch_size) * batch_size :=
          Nat.mul_le_mul_right batch_size (by omega)
        have h2 := Nat.div_mul_le_self j batch_size
        omega
      have hmul : (i + 1) * batch_size = i * batch_size + batch_size :=
        Nat.succ_mul i batch_size
      rw [List.length_take, List.length_drop]
      omega
  · intro l hl
    obtain ⟨i, _, rfl⟩ := List.mem_map.mp hl
    have hmul : (i + 1) * batch_size = i * batch_size + batch_size :=
      Nat.succ_mul i batch_size
    rw [List.length_take, List.length_drop]
    omega

/-- Witness for **C9**: the 120-identifier scenario split with batch
size 50 covers the input exactly and produces batches of sizes
50, 50, 20. -/
theorem makeBatches_partition_witness :
    (makeBatches ((List.range 120).map (fun k => toString k)) 50).flatten =
        (List.range 120).map (fun k => toString k) ∧
      (makeBatches ((List.range 120).map (fun k => toString k)) 50).map
          List.length = [50, 50, 20] :=
  ⟨(makeBatches_partition ((List.range 120).map (fun k => toString k)) 50
      (by norm_num)).2.1,
   (makeBatches_partition ((List.range 120).map (fun k => toString k)) 50
      (by norm_num)).2.2.2.2⟩

end YtChunks
